import Mathlib

/-!
# bindicate: fstab synchronisation and bind-mount provisioning

A shallow embedding of `bin/bindicate.go`.

Go strings are modelled as lists of characters.  Every string operation the program
performs (splitting on the newline byte, testing for an ASCII sentinel prefix,
concatenation, scanning for the path separator) acts on whole code points of a UTF-8
text exactly as it acts on its bytes, so nothing is lost by working with characters.
-/

/-- A Go `string`. -/
abbrev Str := List Char

/-! ## Library functions used by the program -/

namespace strings

/-- Go `strings.HasPrefix(s, pre)`. -/
def HasPrefix (s pre : Str) : Bool := pre.isPrefixOf s

/-- Go `strings.Split(s, sep)` for a one-byte separator, the only way the program calls
it: the substrings between the occurrences of `sep`.  The result is never empty; the
empty string splits into one empty substring. -/
def Split : Str → Char → List Str
  | [], _ => [[]]
  | c :: cs, sep =>
    if c = sep then [] :: Split cs sep
    else
      match Split cs sep with
      | [] => [[c]]
      | l :: ls => (c :: l) :: ls

end strings

namespace filepath

/-- The path separator of `path/filepath` on Unix. -/
def Separator : Char := '/'

/-- The backtracking loop of the `.. element` case of `filepath.Clean`, entered after
`out.w--` with `w` the value of `out.w`:
`for out.w > dotdot && !os.IsPathSeparator(out.index(out.w)) { out.w-- }`.
It returns the final `out.w`. -/
def cleanBacktrack (out : Str) (dotdot : Nat) : Nat → Nat
  | 0 => 0
  | w + 1 =>
    if w + 1 > dotdot ∧ out.get? (w + 1) ≠ some Separator then cleanBacktrack out dotdot w
    else w + 1

/-- The `.. element` case of the loop of `filepath.Clean`: step back over the last
element of the output buffer when there is one above `dotdot`; otherwise, for a path that
is not rooted, append `..` and move `dotdot` to the end of the buffer. -/
def cleanDotDot (rooted : Bool) (out : Str) (dotdot : Nat) : Str × Nat :=
  if out.length > dotdot then
    -- can backtrack
    (out.take (cleanBacktrack out dotdot (out.length - 1)), dotdot)
  else if !rooted then
    -- cannot backtrack, but not rooted, so append .. element
    let out1 := if out.length > 0 then out ++ [Separator] else out
    let out2 := out1 ++ ['.', '.']
    (out2, out2.length)
  else (out, dotdot)

/-- The main loop of `filepath.Clean`, reading the rest of the path and writing to the
buffer `out`.  With `copying` set the loop is inside the `real path element` case, copying
an element up to the next separator. -/
def cleanLoop (rooted : Bool) : Bool → Str → Nat → Str → Str
  | _, out, _, [] => out
  | true, out, dotdot, c :: rest =>
    if c = Separator then cleanLoop rooted false out dotdot rest
    else cleanLoop rooted true (out ++ [c]) dotdot rest
  | false, out, dotdot, c :: rest =>
    if c = Separator then
      -- empty path element
      cleanLoop rooted false out dotdot rest
    else if c = '.' ∧ (rest = [] ∨ rest.head? = some Separator) then
      -- . element
      cleanLoop rooted false out dotdot rest
    else if c = '.' ∧ rest.head? = some '.' ∧
        (rest.tail = [] ∨ rest.tail.head? = some Separator) then
      -- .. element: remove to last separator
      match rest with
      | [] => out
      | _ :: rest2 =>
        let r := cleanDotDot rooted out dotdot
        cleanLoop rooted false r.1 r.2 rest2
    else
      -- real path element: add slash if needed, then copy the element
      let out1 :=
        if (rooted ∧ out.length ≠ 1) ∨ (¬ rooted ∧ out.length ≠ 0) then out ++ [Separator]
        else out
      cleanLoop rooted true (out1 ++ [c]) dotdot rest

/-- Go `filepath.Clean` on Unix (no volume names): the shortest path name equivalent to
`path` by purely lexical processing. -/
def Clean (path : Str) : Str :=
  match path with
  | [] => ['.']
  | c :: rest =>
    let rooted : Bool := c = Separator
    let out := if rooted then cleanLoop true false [Separator] 1 rest
               else cleanLoop false false [] 0 (c :: rest)
    -- Turn empty string into "."
    if out = [] then ['.'] else out

/-- Go `filepath.Join(a, b)` on Unix: the first empty elements are skipped, the rest are
joined with the separator and cleaned; the result is empty when both are empty. -/
def Join (a b : Str) : Str :=
  if a ≠ [] then Clean (a ++ [Separator] ++ b)
  else if b ≠ [] then Clean b
  else []

/-- Go `filepath.Dir` on Unix: everything up to the last separator, cleaned. -/
def Dir (path : Str) : Str :=
  Clean (path.reverse.dropWhile (fun c => c != Separator)).reverse

end filepath

namespace fstab

/-- The `Mount` record of the `go-fstab` library. -/
structure Mount where
  Spec : Str
  File : Str
  VfsType : Str
  MntOps : List (Str × Str) := []
  Freq : Nat := 0
  PassNo : Nat := 0

/-- Modelled from the spec: the option field of a mount line, blank when there are no
options, which is the only case the program produces; options, when there are some, are
`key` or `key=value` items separated by commas. -/
def Mount.MntOpsString (mount : Mount) : Str :=
  [','].intercalate (mount.MntOps.map fun kv =>
    if kv.2 = [] then kv.1 else kv.1 ++ ['='] ++ kv.2)

/-- Modelled from the spec: the library call `Mount.String`, one fstab line (without the
newline) of six fields separated by single spaces: device, mount point, type, options,
dump number and pass number. -/
def Mount.String (mount : Mount) : Str :=
  mount.Spec ++ [' '] ++ mount.File ++ [' '] ++ mount.VfsType ++ [' '] ++
    mount.MntOpsString ++ [' '] ++ (Nat.repr mount.Freq).toList ++ [' '] ++
    (Nat.repr mount.PassNo).toList

end fstab

/-! ## The program -/

/-- The configuration record `Bindicate`. -/
structure Bindicate where
  /-- Prefix path where the bind mounted files are stored. -/
  Prefix : Str
  Paths : List Str

def bindMountsStart : Str := "# BINDICATE START".toList

def bindMountEnd : Str := "# BINDICATE END".toList

/-- The mount record `createFstabLines` builds for one path. -/
def Bindicate.mountFor (b : Bindicate) (path : Str) : fstab.Mount :=
  { Spec := filepath.Join b.Prefix path, File := path, VfsType := "bind".toList }

/-- The method `createFstabLines`: the loop appends to `res` the rendered mount of each
path and a newline. -/
def Bindicate.createFstabLines (b : Bindicate) : Str :=
  b.Paths.foldl (fun res path => (res ++ (b.mountFor path).String) ++ ['\n']) []

/-- The two variables the scanning loop of `SyncBindMountsInFstab` updates. -/
structure ScanState where
  newFstab : Str
  inBindicateSection : Bool
deriving DecidableEq

/-- One iteration of the loop over the lines in `SyncBindMountsInFstab`. -/
def scanLine (st : ScanState) (line : Str) : ScanState :=
  if strings.HasPrefix line bindMountsStart then
    { st with inBindicateSection := true }
  else if strings.HasPrefix line bindMountEnd then
    { st with inBindicateSection := false }
  else if !st.inBindicateSection then
    let newFstab := if st.newFstab ≠ [] then st.newFstab ++ ['\n'] else st.newFstab
    { st with newFstab := newFstab ++ line }
  else st

/-- The method `SyncBindMountsInFstab`. -/
def Bindicate.SyncBindMountsInFstab (b : Bindicate) (etcFstab : Str) : Str :=
  let lines := strings.Split etcFstab '\n'
  let st := lines.foldl scanLine { newFstab := [], inBindicateSection := false }
  let newFstab := if st.newFstab ≠ [] then st.newFstab ++ ['\n'] else st.newFstab
  let newFstab := newFstab ++ (bindMountsStart ++ ['\n'])
  let newFstab := newFstab ++ b.createFstabLines
  newFstab ++ bindMountEnd

/-! ## The operating system

`SetupBindMounts` acts on the file system and the mount table.  The state of the machine
is a value of a type `W`, errors are values of a type `E` (a Go `error` that is not `nil`),
open files are values of a type `F`, and the operating system is a record of the calls the
program makes. -/

/-- Go `fs.FileMode`. -/
abbrev FileMode := Nat

/-- Go `fs.FileInfo`, of which the program reads the mode only. -/
structure FileInfo where
  Mode : FileMode
deriving DecidableEq

/-- The calls into the operating system.  `Stat` follows the contract of `os.Stat`: it
returns a file information and a `nil` error, or a `nil` file information and an error. -/
structure OS (W E F : Type) where
  /-- Go `os.Stat(name)`. -/
  Stat : W → Str → Except E FileInfo
  /-- Go `os.IsNotExist(err)` for an error that is not `nil`. -/
  IsNotExist : E → Bool
  /-- Go `os.MkdirAll(path, perm)`. -/
  MkdirAll : W → Str → FileMode → W × Option E
  /-- Go `os.Open(name)`. -/
  Open : W → Str → Except E F
  /-- Go `os.OpenFile(name, flag, perm)`. -/
  OpenFile : W → Str → Nat → FileMode → W × Except E F
  /-- Go `io.Copy(dst, src)`, of which the program keeps the error only. -/
  Copy : W → F → F → W × Option E
  /-- Go `syscall.Mount(source, target, fstype, flags, data)`. -/
  Mount : W → Str → Str → Str → Nat → Str → W × Option E

namespace syscall

def MS_BIND : Nat := 4096

def O_RDWR : Nat := 2

def O_CREATE : Nat := 64

def O_TRUNC : Nat := 512

end syscall

/-- The function `BindMount`. -/
def BindMount {W E F : Type} (sys : OS W E F) (w : W) (src dest : Str) : W × Option E :=
  sys.Mount w src dest [] syscall.MS_BIND []

/-- The function `copyFilePreservePermissions`; the deferred `Close` calls are left out. -/
def copyFilePreservePermissions {W E F : Type} (sys : OS W E F) (w : W) (src dst : Str) :
    W × Option E :=
  match sys.Stat w src with
  | .error err => (w, some err)
  | .ok srcInfo =>
    match sys.Open w src with
    | .error err => (w, some err)
    | .ok srcF =>
      -- Create destination, w/ same permissions
      match sys.OpenFile w dst (syscall.O_RDWR ||| syscall.O_CREATE ||| syscall.O_TRUNC)
          srcInfo.Mode with
      | (w1, .error err) => (w1, some err)
      | (w1, .ok destF) => sys.Copy w1 destF srcF

namespace errors

/-- Go `errors.Join(errs...)` on errors none of which is `nil`: `nil` when there is none,
otherwise one error that wraps them all in the order given. -/
def Join {E : Type} : List E → Option (List E)
  | [] => none
  | e :: es => some (e :: es)

end errors

/-- A call `SetupBindMounts` makes to one of the operations that change the machine, with
its arguments. -/
inductive Call where
  | mkdirAll (path : Str) (perm : FileMode)
  | copy (src dst : Str)
  | mount (src dest : Str)
deriving DecidableEq

/-- The state of a run of `SetupBindMounts`: the machine, the slice `errs`, and the log of
the calls made so far (the log is not a variable of the program). -/
structure Run (W E : Type) where
  world : W
  errs : List E
  calls : List Call

/-- How a run of `SetupBindMounts` ends: it returns `errors.Join(errs...)`, or the Go
runtime stops the program at a nil dereference. -/
inductive Outcome (W E : Type) where
  | returned (st : Run W E) (err : Option (List E))
  | crashed (st : Run W E)

/-- The state of the run when it ended. -/
def Outcome.run {W E : Type} : Outcome W E → Run W E
  | .returned st _ => st
  | .crashed st => st

/-- The value `SetupBindMounts` returned, when it returned: `some none` for `nil`. -/
def Outcome.result {W E : Type} : Outcome W E → Option (Option (List E))
  | .returned _ err => some err
  | .crashed _ => none

/-- The first part of the loop body of `SetupBindMounts`, up to and including
`os.MkdirAll`.  It gives `none` where `pStat.Mode()` is called on the `nil` file
information that `os.Stat` returned together with an error. -/
def Bindicate.prepareDest {W E F : Type} (sys : OS W E F) (st : Run W E)
    (dest srcDir : Str) : Option (Run W E) :=
  match sys.Stat st.world dest with
  | .ok _ => some st
  | .error err =>
    if sys.IsNotExist err then
      -- get mode of the src directory
      match sys.Stat st.world srcDir with
      | .error _ => none
      | .ok _ =>
        let mode : FileMode := 0o755
        some { st with
          world := (sys.MkdirAll st.world (filepath.Dir dest) mode).1
          calls := st.calls ++ [Call.mkdirAll (filepath.Dir dest) mode] }
    else some st

/-- The loop body of `SetupBindMounts` for one path. -/
def Bindicate.setupPath {W E F : Type} (sys : OS W E F) (b : Bindicate) (st : Run W E)
    (path : Str) : Option (Run W E) :=
  let dest := b.Prefix ++ ['/'] ++ path
  let srcDir := filepath.Dir path
  match Bindicate.prepareDest sys st dest srcDir with
  | none => none
  | some st1 =>
    match copyFilePreservePermissions sys st1.world path dest with
    | (w2, some err) =>
      some { world := w2, errs := st1.errs ++ [err], calls := st1.calls ++ [Call.copy path dest] }
    | (w2, none) =>
      match BindMount sys w2 path dest with
      | (w3, some err) =>
        some { world := w3, errs := st1.errs ++ [err],
               calls := st1.calls ++ [Call.copy path dest, Call.mount path dest] }
      | (w3, none) =>
        some { world := w3, errs := st1.errs,
               calls := st1.calls ++ [Call.copy path dest, Call.mount path dest] }

/-- The loop of `SetupBindMounts` over the paths, and its return statement. -/
def Bindicate.setupLoop {W E F : Type} (sys : OS W E F) (b : Bindicate) :
    List Str → Run W E → Outcome W E
  | [], st => Outcome.returned st (errors.Join st.errs)
  | path :: rest, st =>
    match b.setupPath sys st path with
    | none => Outcome.crashed st
    | some st1 => Bindicate.setupLoop sys b rest st1

/-- The method `SetupBindMounts`, run on the machine `w`. -/
def Bindicate.SetupBindMounts {W E F : Type} (sys : OS W E F) (b : Bindicate) (w : W) :
    Outcome W E :=
  b.setupLoop sys b.Paths { world := w, errs := [], calls := [] }

/-! ## A small machine

An in-memory file system on which the program can be run: directories, regular files
with their modes, and the bind mounts made so far.  Paths are looked up in cleaned form. -/

/-- The errors of the small machine. -/
inductive Errno where
  | ENOENT
  | ENOTDIR
deriving DecidableEq

/-- The state of the small machine. -/
structure MemFS where
  dirs : List Str
  files : List (Str × FileMode)
  mounts : List (Str × Str)
deriving DecidableEq

/-- The directory `p` and the directories above it, `n` levels up at most. -/
def MemFS.chain : Nat → Str → List Str
  | 0, _ => []
  | n + 1, p => p :: MemFS.chain n (filepath.Dir p)

/-- File information of a path of the small machine. -/
def MemFS.stat (w : MemFS) (name : Str) : Except Errno FileInfo :=
  if filepath.Clean name ∈ w.dirs then .ok { Mode := 0o755 }
  else
    match w.files.lookup (filepath.Clean name) with
    | some mode => .ok { Mode := mode }
    | none => .error Errno.ENOENT

/-- The operating system of the small machine. -/
def memOS : OS MemFS Errno Str where
  Stat := MemFS.stat
  IsNotExist := fun e => e = Errno.ENOENT
  MkdirAll := fun w path _ =>
    if (w.files.lookup (filepath.Clean path)).isSome then (w, some Errno.ENOTDIR)
    else ({ w with dirs := w.dirs ++ MemFS.chain path.length (filepath.Clean path) }, none)
  Open := fun w name =>
    if (w.files.lookup (filepath.Clean name)).isSome then .ok (filepath.Clean name)
    else .error Errno.ENOENT
  OpenFile := fun w name _ perm =>
    if (w.files.lookup (filepath.Clean name)).isSome then (w, .ok (filepath.Clean name))
    else if filepath.Clean name ∈ w.dirs then (w, .error Errno.ENOENT)
    else if filepath.Dir name ∈ w.dirs then
      ({ w with files := w.files ++ [(filepath.Clean name, perm)] }, .ok (filepath.Clean name))
    else (w, .error Errno.ENOENT)
  Copy := fun w _ _ => (w, none)
  Mount := fun w source target _ _ _ =>
    match MemFS.stat w source, MemFS.stat w target with
    | .ok _, .ok _ => ({ w with mounts := w.mounts ++ [(source, target)] }, none)
    | _, _ => (w, some Errno.ENOENT)

/-- A machine with the directories `/` and `/etc` and the file `/etc/hosts`. -/
def smallMachine : MemFS where
  dirs := ["/".toList, "/etc".toList]
  files := [("/etc/hosts".toList, 0o644)]
  mounts := []

/-! ## Example inputs -/

/-- The configuration of the test `replace existing bindicate section`. -/
def cfgTest : Bindicate where
  Prefix := "/test".toList
  Paths := ["/etc/test".toList]

/-- A configuration whose prefix ends with a separator. -/
def cfgTrailingSlash : Bindicate where
  Prefix := "/test/".toList
  Paths := ["/etc/test".toList]

/-- A configuration with a path that has newlines in a file name. -/
def cfgNewlinePath : Bindicate where
  Prefix := "/p".toList
  Paths := ["/a\n# BINDICATE END\n/b".toList]

/-- A configuration whose first path lies in a directory that does not exist on the
small machine. -/
def cfgBadPath : Bindicate where
  Prefix := "/p".toList
  Paths := ["/nonexistent/file".toList, "/etc/hosts".toList]

/-- The second path of `cfgBadPath` alone. -/
def cfgGoodPath : Bindicate where
  Prefix := "/p".toList
  Paths := ["/etc/hosts".toList]

/-- The configuration of the test `single path`. -/
def cfgHostname : Bindicate where
  Prefix := "/var/lib/bindicate/protected".toList
  Paths := ["/etc/hostname".toList]

/-- A machine with the directories `/` and `/etc` and the file `/etc/hostname`. -/
def hostMachine : MemFS where
  dirs := ["/".toList, "/etc".toList]
  files := [("/etc/hostname".toList, 0o644)]
  mounts := []

/-- The fstab of the test `replace existing bindicate section`. -/
def fstabOneSection : Str :=
  "/dev/sda1 / ext4 defaults 0 1\n# BINDICATE START\n/old/path /old/target bind defaults 0 0\n# BINDICATE END\n# More entries\n/dev/sda2 /home ext4 defaults 0 2".toList

/-- An fstab whose managed section holds a line that starts with the end sentinel. -/
def fstabEndInside : Str :=
  "/dev/sda1 / ext4 defaults 0 1\n# BINDICATE START\n# BINDICATE END\n/old/path /old/target bind defaults 0 0\n# BINDICATE END\n# More entries".toList

/-- An fstab with two managed sections, one after the other. -/
def fstabTwoSections : Str :=
  "/dev/sda1 / ext4 defaults 0 1\n# BINDICATE START\n/old/one /one bind  0 0\n# BINDICATE END\n# More entries\n# BINDICATE START\n/old/two /two bind  0 0\n# BINDICATE END\n/dev/sda2 /home ext4 defaults 0 2".toList

/-- An fstab with a start sentinel that is never closed. -/
def fstabUnclosed : Str :=
  "/dev/sda1 / ext4 defaults 0 1\n# BINDICATE START\n/old/path /old/target bind defaults 0 0\n/dev/sda2 /home ext4 defaults 0 2".toList

/-- An fstab that begins with an empty line. -/
def fstabLeadingBlank : Str :=
  "\n/dev/sda1 / ext4 defaults 0 1".toList

/-- An fstab without a managed section, from the test `multiple paths in fstab`. -/
def fstabNoSection : Str :=
  "/dev/root / ext4 defaults 0 1".toList

/-! ## Notions of the specification -/

/-- Lines joined by newlines, with no newline after the last one. -/
def joinLines : List Str → Str
  | [] => []
  | [l] => l
  | l :: l2 :: ls => l ++ '\n' :: joinLines (l2 :: ls)

/-- A sentinel line: a line that starts with the start sentinel or with the end
sentinel. -/
def isSentinel (line : Str) : Bool :=
  strings.HasPrefix line bindMountsStart || strings.HasPrefix line bindMountEnd

/-- The lines the scanning loop of `SyncBindMountsInFstab` copies, read off the loop: the
flag is the value of `inBindicateSection` before the first line. -/
def scanKept : Bool → List Str → List Str
  | _, [] => []
  | inside, l :: ls =>
    if strings.HasPrefix l bindMountsStart then scanKept true ls
    else if strings.HasPrefix l bindMountEnd then scanKept false ls
    else if inside then scanKept true ls
    else l :: scanKept false ls

/-- A line that starts with the start sentinel. -/
def isStartLine (line : Str) : Bool := strings.HasPrefix line bindMountsStart

/-- A line that starts with the end sentinel. -/
def isEndLine (line : Str) : Bool := strings.HasPrefix line bindMountEnd

/-- Line `i` of `ls` comes after a start sentinel, with no end sentinel between that start
sentinel and the line. -/
def afterOpenStart (ls : List Str) (i : Nat) : Prop :=
  ∃ j, j < i ∧ (isStartLine (ls.getD j []) = true ∧
    ∀ k, k < i → j < k → isEndLine (ls.getD k []) = false)

instance afterOpenStart.decidable (ls : List Str) (i : Nat) : Decidable (afterOpenStart ls i) := by
  unfold afterOpenStart
  infer_instance

/-- Line `i` of `ls` comes before an end sentinel. -/
def beforeEnd (ls : List Str) (i : Nat) : Prop :=
  ∃ k, k < ls.length ∧ (i < k ∧ isEndLine (ls.getD k []) = true)

instance beforeEnd.decidable (ls : List Str) (i : Nat) : Decidable (beforeEnd ls i) := by
  unfold beforeEnd
  infer_instance

/-- The lines of `ls` at the positions that `keep` selects, in their order. -/
def linesWhere (ls : List Str) (keep : Nat → Bool) : List Str :=
  (ls.enum.filter (fun q => keep q.1)).map Prod.snd

/-- The lines that are neither sentinel lines nor between a start sentinel and its end
sentinel: a line is between the two when it comes after a start sentinel with no end
sentinel in between, and an end sentinel follows it. -/
def outsideClosedSections (ls : List Str) : List Str :=
  linesWhere ls (fun i =>
    !isSentinel (ls.getD i []) && !decide (afterOpenStart ls i ∧ beforeEnd ls i))

/-- The lines that are neither sentinel lines nor after a start sentinel with no end
sentinel in between: the lines between a start sentinel and the next end sentinel are
left out, and so are the lines after a start sentinel that is never closed. -/
def outsideLines (ls : List Str) : List Str :=
  linesWhere ls (fun i => !isSentinel (ls.getD i []) && !decide (afterOpenStart ls i))

/-- A list of lines without the empty lines it begins with. -/
def dropLeadingEmpty (ls : List Str) : List Str :=
  ls.dropWhile (fun l => l = [])

/-- The regenerated section: the start sentinel, a newline, the rendered lines and the
end sentinel, with no newline after it. -/
def Bindicate.managedSection (b : Bindicate) : Str :=
  bindMountsStart ++ ['\n'] ++ b.createFstabLines ++ bindMountEnd

/-- The fstab line of one path, without its newline: the device field, the mount point,
the type `bind`, a blank option field, and the two numbers. -/
def fstabLine (device mountPoint : Str) : Str :=
  device ++ [' '] ++ mountPoint ++ " bind  0 0".toList

/-- An ordinary path element: not empty, without a separator, and neither `.` nor `..`. -/
def ordinaryElem (e : Str) : Bool :=
  e ≠ [] ∧ filepath.Separator ∉ e ∧ e ≠ ['.'] ∧ e ≠ ['.', '.']

/-- The absolute path with the given elements: each element after a separator. -/
def absPath (es : List Str) : Str :=
  (es.map (fun e => filepath.Separator :: e)).flatten

/-- A plain absolute path: a separator and an ordinary element, one or more times. -/
def IsPlainAbs (p : Str) : Prop :=
  ∃ es : List Str, es ≠ [] ∧ (∀ e ∈ es, ordinaryElem e = true) ∧ p = absPath es

/-- Elements joined by separators; an empty element stands for a doubled separator. -/
def pathOf : List Str → Str
  | [] => []
  | [x] => x
  | x :: y :: r => x ++ filepath.Separator :: pathOf (y :: r)

/-- The lines `SyncBindMountsInFstab` keeps of a text: the lines outside the managed
sections, without the empty lines they begin with. -/
def keptLines (etcFstab : Str) : List Str :=
  dropLeadingEmpty (scanKept false (strings.Split etcFstab '\n'))

set_option maxRecDepth 1000000

set_option maxHeartbeats 2000000

/-! ## Lines -/

namespace strings

theorem Split_ne_nil (s : Str) (sep : Char) : Split s sep ≠ [] := by
  cases s with
  | nil => simp [Split]
  | cons c cs =>
    unfold Split
    split
    · simp
    · split <;> simp

theorem Split_cons_sep (cs : Str) (sep : Char) : Split (sep :: cs) sep = [] :: Split cs sep := by
  simp [Split]

theorem Split_cons_of_ne {c sep : Char} (h : c ≠ sep) (cs : Str) :
    Split (c :: cs) sep = (c :: (Split cs sep).headD []) :: (Split cs sep).tail := by
  rw [Split, if_neg h]
  cases hs : Split cs sep with
  | nil => exact absurd hs (Split_ne_nil cs sep)
  | cons l ls => rfl

theorem Split_append_sep (a b : Str) (sep : Char) :
    Split (a ++ sep :: b) sep = Split a sep ++ Split b sep := by
  induction a with
  | nil => simp [Split]
  | cons c cs ih =>
    by_cases h : c = sep
    · simp [Split, h, ih]
    · rw [List.cons_append, Split_cons_of_ne h, Split_cons_of_ne h, ih]
      cases hs : Split cs sep with
      | nil => exact absurd hs (Split_ne_nil cs sep)
      | cons l ls => simp

theorem not_mem_of_mem_Split {s : Str} {sep : Char} {l : Str} (h : l ∈ Split s sep) :
    sep ∉ l := by
  induction s generalizing l with
  | nil =>
    simp [Split] at h
    simp [h]
  | cons c cs ih =>
    by_cases hc : c = sep
    · simp only [Split, hc, if_true, List.mem_cons] at h
      rcases h with h | h
      · simp [h]
      · exact ih h
    · simp only [Split, hc, if_false] at h
      cases hs : Split cs sep with
      | nil => exact absurd hs (Split_ne_nil cs sep)
      | cons l1 ls =>
        rw [hs] at h ih
        simp only [List.mem_cons] at h
        rcases h with h | h
        · subst h
          have := ih (List.mem_cons_self l1 ls)
          simp only [List.mem_cons, not_or]
          exact ⟨fun e => hc e.symm, this⟩
        · exact ih (List.mem_cons_of_mem _ h)

theorem Split_of_not_mem {s : Str} {sep : Char} (h : sep ∉ s) : Split s sep = [s] := by
  induction s with
  | nil => simp [Split]
  | cons c cs ih =>
    simp only [List.mem_cons, not_or] at h
    have hc : ¬ c = sep := fun e => h.1 e.symm
    simp [Split, hc, ih h.2]

end strings

theorem joinLines_cons_cons (l l2 : Str) (ls : List Str) :
    joinLines (l :: l2 :: ls) = l ++ '\n' :: joinLines (l2 :: ls) := rfl

theorem joinLines_cons_of_ne_nil (l : Str) {ls : List Str} (h : ls ≠ []) :
    joinLines (l :: ls) = l ++ '\n' :: joinLines ls := by
  cases ls with
  | nil => exact absurd rfl h
  | cons l2 ls => rfl

theorem joinLines_push (c : Char) (l : Str) (ls : List Str) :
    joinLines ((c :: l) :: ls) = c :: joinLines (l :: ls) := by
  cases ls <;> simp [joinLines]

theorem joinLines_Split (s : Str) : joinLines (strings.Split s '\n') = s := by
  induction s with
  | nil => simp [strings.Split, joinLines]
  | cons c cs ih =>
    by_cases hc : c = '\n'
    · subst hc
      rw [strings.Split_cons_sep, joinLines_cons_of_ne_nil _ (strings.Split_ne_nil _ _), ih]
      rfl
    · simp only [strings.Split, hc, if_false]
      cases hs : strings.Split cs '\n' with
      | nil => exact absurd hs (strings.Split_ne_nil _ _)
      | cons l ls =>
        rw [hs] at ih
        simp [joinLines_push, ih]

theorem Split_joinLines {ls : List Str} (hne : ls ≠ []) (h : ∀ l ∈ ls, '\n' ∉ l) :
    strings.Split (joinLines ls) '\n' = ls := by
  induction ls with
  | nil => exact absurd rfl hne
  | cons l ls ih =>
    cases ls with
    | nil => simpa [joinLines] using strings.Split_of_not_mem (h l (List.mem_cons_self _ _))
    | cons l2 ls =>
      rw [joinLines_cons_cons, strings.Split_append_sep,
        strings.Split_of_not_mem (h l (List.mem_cons_self _ _)),
        ih (by simp) (fun x hx => h x (List.mem_cons_of_mem _ hx))]
      rfl

theorem joinLines_eq_nil_iff {ls : List Str} :
    joinLines ls = [] ↔ ls = [] ∨ ls = [[]] := by
  match ls with
  | [] => simp [joinLines]
  | [l] => simp [joinLines]
  | l :: l2 :: ls => simp [joinLines]

theorem joinLines_append_line (a l : Str) (ls : List Str) :
    joinLines ((a ++ '\n' :: l) :: ls) = joinLines (a :: l :: ls) := by
  cases ls <;> simp [joinLines]

theorem dropLeadingEmpty_head_ne_nil (ls : List Str) :
    dropLeadingEmpty ls = [] ∨ ∃ l rest, dropLeadingEmpty ls = l :: rest ∧ l ≠ [] := by
  induction ls with
  | nil => exact Or.inl rfl
  | cons l ls ih =>
    by_cases hl : l = []
    · simpa [dropLeadingEmpty, List.dropWhile_cons, hl] using ih
    · exact Or.inr ⟨l, ls, by simp [dropLeadingEmpty, List.dropWhile_cons, hl], hl⟩

theorem dropLeadingEmpty_of_head_ne_nil {l : Str} (hl : l ≠ []) (ls : List Str) :
    dropLeadingEmpty (l :: ls) = l :: ls := by
  simp [dropLeadingEmpty, List.dropWhile_cons, hl]

theorem dropLeadingEmpty_idem (ls : List Str) :
    dropLeadingEmpty (dropLeadingEmpty ls) = dropLeadingEmpty ls := by
  rcases dropLeadingEmpty_head_ne_nil ls with h | ⟨l, rest, h, hl⟩
  · rw [h]; rfl
  · rw [h]; exact dropLeadingEmpty_of_head_ne_nil hl rest

theorem joinLines_dropLeadingEmpty_eq_nil_iff (ls : List Str) :
    joinLines (dropLeadingEmpty ls) = [] ↔ dropLeadingEmpty ls = [] := by
  rcases dropLeadingEmpty_head_ne_nil ls with h | ⟨l, rest, h, hl⟩
  · simp [h, joinLines]
  · rw [h, joinLines_eq_nil_iff]
    simp [hl]

/-! ## The scanning loop -/

theorem scanLine_start {line : Str} (h : strings.HasPrefix line bindMountsStart = true)
    (st : ScanState) : scanLine st line = { st with inBindicateSection := true } := by
  simp [scanLine, h]

theorem scanLine_end {line : Str} (h1 : strings.HasPrefix line bindMountsStart = false)
    (h2 : strings.HasPrefix line bindMountEnd = true) (st : ScanState) :
    scanLine st line = { st with inBindicateSection := false } := by
  simp [scanLine, h1, h2]

theorem scanLine_inside {line : Str} (h1 : strings.HasPrefix line bindMountsStart = false)
    (h2 : strings.HasPrefix line bindMountEnd = false) (acc : Str) :
    scanLine ⟨acc, true⟩ line = ⟨acc, true⟩ := by
  simp [scanLine, h1, h2]

theorem scanLine_outside {line : Str} (h1 : strings.HasPrefix line bindMountsStart = false)
    (h2 : strings.HasPrefix line bindMountEnd = false) (acc : Str) :
    scanLine ⟨acc, false⟩ line =
      ⟨(if acc ≠ [] then acc ++ ['\n'] else acc) ++ line, false⟩ := by
  simp [scanLine, h1, h2]

/-- Once the accumulator holds content, the loop appends every outside line after a
newline. -/
theorem foldl_scanLine_of_ne_nil (ls : List Str) (acc : Str) (inside : Bool)
    (hacc : acc ≠ []) :
    (ls.foldl scanLine ⟨acc, inside⟩).newFstab = joinLines (acc :: scanKept inside ls) := by
  induction ls generalizing acc inside with
  | nil => simp [scanKept, joinLines]
  | cons l ls ih =>
    rw [List.foldl_cons, scanKept]
    cases h1 : strings.HasPrefix l bindMountsStart with
    | true => simpa [scanLine_start h1] using ih acc true hacc
    | false =>
      cases h2 : strings.HasPrefix l bindMountEnd with
      | true => simpa [scanLine_end h1 h2] using ih acc false hacc
      | false =>
        cases inside with
        | true => simpa [scanLine_inside h1 h2] using ih acc true hacc
        | false =>
          rw [scanLine_outside h1 h2, if_pos hacc]
          have hne : acc ++ ['\n'] ++ l ≠ [] := by simp
          rw [ih _ false hne]
          simp only [Bool.false_eq_true, if_false, List.append_assoc, List.singleton_append]
          exact joinLines_append_line acc l _

/-- From an empty accumulator the loop joins the outside lines, except the empty lines
they begin with. -/
theorem foldl_scanLine_nil (ls : List Str) (inside : Bool) :
    (ls.foldl scanLine ⟨[], inside⟩).newFstab =
      joinLines (dropLeadingEmpty (scanKept inside ls)) := by
  induction ls generalizing inside with
  | nil => simp [scanKept, joinLines, dropLeadingEmpty]
  | cons l ls ih =>
    rw [List.foldl_cons, scanKept]
    cases h1 : strings.HasPrefix l bindMountsStart with
    | true => simpa [scanLine_start h1] using ih true
    | false =>
      cases h2 : strings.HasPrefix l bindMountEnd with
      | true => simpa [scanLine_end h1 h2] using ih false
      | false =>
        cases inside with
        | true => simpa [scanLine_inside h1 h2] using ih true
        | false =>
          rw [scanLine_outside h1 h2]
          simp only [ne_eq, not_true_eq_false, if_false, List.nil_append, Bool.false_eq_true]
          by_cases hl : l = []
          · subst hl
            simpa [dropLeadingEmpty, List.dropWhile_cons] using ih false
          · rw [foldl_scanLine_of_ne_nil ls l false hl, dropLeadingEmpty_of_head_ne_nil hl]

/-- What `SyncBindMountsInFstab` returns: the kept lines joined by newlines, a newline
when there is a kept line, and the regenerated section. -/
theorem SyncBindMountsInFstab_eq (b : Bindicate) (etcFstab : Str) :
    b.SyncBindMountsInFstab etcFstab =
      (if keptLines etcFstab = [] then [] else joinLines (keptLines etcFstab) ++ ['\n']) ++
        b.managedSection := by
  unfold Bindicate.SyncBindMountsInFstab Bindicate.managedSection
  simp only [foldl_scanLine_nil]
  have h := joinLines_dropLeadingEmpty_eq_nil_iff (scanKept false (strings.Split etcFstab '\n'))
  by_cases hk : keptLines etcFstab = []
  · have hj : joinLines (dropLeadingEmpty (scanKept false (strings.Split etcFstab '\n'))) = [] :=
      h.2 hk
    simp [hk, hj]
  · have hj : joinLines (dropLeadingEmpty (scanKept false (strings.Split etcFstab '\n'))) ≠ [] :=
      fun e => hk (h.1 e)
    have hk2 : ¬ dropLeadingEmpty (scanKept false (strings.Split etcFstab '\n')) = [] := hk
    simp [hk, hj, keptLines, hk2]

/-! ## Outside lines of a structured text -/

theorem mem_scanKept {inside : Bool} {ls : List Str} {l : Str}
    (h : l ∈ scanKept inside ls) :
    l ∈ ls ∧ strings.HasPrefix l bindMountsStart = false ∧
      strings.HasPrefix l bindMountEnd = false := by
  induction ls generalizing inside with
  | nil => simp [scanKept] at h
  | cons x xs ih =>
    rw [scanKept] at h
    cases h1 : strings.HasPrefix x bindMountsStart with
    | true =>
      simp only [h1, if_true] at h
      exact ⟨List.mem_cons_of_mem _ (ih h).1, (ih h).2⟩
    | false =>
      cases h2 : strings.HasPrefix x bindMountEnd with
      | true =>
        simp only [h1, h2, if_true, Bool.false_eq_true, if_false] at h
        exact ⟨List.mem_cons_of_mem _ (ih h).1, (ih h).2⟩
      | false =>
        cases inside with
        | true =>
          simp only [h1, h2, if_true, Bool.false_eq_true, if_false] at h
          exact ⟨List.mem_cons_of_mem _ (ih h).1, (ih h).2⟩
        | false =>
          simp only [h1, h2, Bool.false_eq_true, if_false, List.mem_cons] at h
          rcases h with h | h
          · subst h
            exact ⟨List.mem_cons_self _ _, h1, h2⟩
          · exact ⟨List.mem_cons_of_mem _ (ih h).1, (ih h).2⟩

theorem mem_dropLeadingEmpty {ls : List Str} {l : Str} (h : l ∈ dropLeadingEmpty ls) :
    l ∈ ls :=
  (List.dropWhile_suffix _).subset h

theorem scanKept_append_of_no_sentinel (A rest : List Str)
    (hA : ∀ l ∈ A, strings.HasPrefix l bindMountsStart = false ∧
      strings.HasPrefix l bindMountEnd = false) :
    scanKept false (A ++ rest) = A ++ scanKept false rest := by
  induction A with
  | nil => rfl
  | cons l A ih =>
    have hl := hA l (List.mem_cons_self _ _)
    rw [List.cons_append, scanKept]
    simp only [hl.1, hl.2, Bool.false_eq_true, if_false]
    rw [ih (fun x hx => hA x (List.mem_cons_of_mem _ hx)), List.cons_append]

theorem scanKept_inside_append (X rest : List Str)
    (hX : ∀ l ∈ X, strings.HasPrefix l bindMountEnd = false) :
    scanKept true (X ++ rest) = scanKept true rest := by
  induction X with
  | nil => rfl
  | cons l X ih =>
    have hl := hX l (List.mem_cons_self _ _)
    rw [List.cons_append, scanKept]
    cases h1 : strings.HasPrefix l bindMountsStart <;>
      simp [hl, ih (fun x hx => hX x (List.mem_cons_of_mem _ hx))]

theorem HasPrefix_start_start : strings.HasPrefix bindMountsStart bindMountsStart = true := by
  decide

theorem HasPrefix_end_start : strings.HasPrefix bindMountEnd bindMountsStart = false := by
  decide

theorem HasPrefix_end_end : strings.HasPrefix bindMountEnd bindMountEnd = true := by
  decide

theorem scanKept_start (inside : Bool) (rest : List Str) :
    scanKept inside (bindMountsStart :: rest) = scanKept true rest := by
  rw [scanKept, HasPrefix_start_start]; rfl

theorem scanKept_end (inside : Bool) (rest : List Str) :
    scanKept inside (bindMountEnd :: rest) = scanKept false rest := by
  rw [scanKept, HasPrefix_end_start, HasPrefix_end_end]; rfl

/-- One managed section between two blocks of ordinary lines. -/
theorem scanKept_one_section (A old B : List Str)
    (hA : ∀ l ∈ A, strings.HasPrefix l bindMountsStart = false ∧
      strings.HasPrefix l bindMountEnd = false)
    (hold : ∀ l ∈ old, strings.HasPrefix l bindMountEnd = false)
    (hB : ∀ l ∈ B, strings.HasPrefix l bindMountsStart = false ∧
      strings.HasPrefix l bindMountEnd = false) :
    scanKept false (A ++ bindMountsStart :: (old ++ bindMountEnd :: B)) = A ++ B := by
  rw [scanKept_append_of_no_sentinel A _ hA, scanKept_start,
    scanKept_inside_append old _ hold, scanKept_end]
  have := scanKept_append_of_no_sentinel B [] hB
  simp only [List.append_nil] at this
  rw [this]
  simp [scanKept]

theorem scanKept_of_no_sentinel (A : List Str)
    (hA : ∀ l ∈ A, strings.HasPrefix l bindMountsStart = false ∧
      strings.HasPrefix l bindMountEnd = false) :
    scanKept false A = A := by
  have := scanKept_append_of_no_sentinel A [] hA
  simpa [scanKept] using this

/-! ## Rendering the fstab lines -/

theorem mountFor_String (b : Bindicate) (path : Str) :
    (b.mountFor path).String = fstabLine (filepath.Join b.Prefix path) path := by
  simp [Bindicate.mountFor, fstab.Mount.String, fstab.Mount.MntOpsString, fstabLine,
    List.intercalate]
  decide

theorem foldl_render (f : Str → Str) (paths : List Str) (res : Str) :
    paths.foldl (fun res path => (res ++ f path) ++ ['\n']) res =
      res ++ (paths.map (fun path => f path ++ ['\n'])).flatten := by
  induction paths generalizing res with
  | nil => simp
  | cons p ps ih =>
    rw [List.foldl_cons, ih]
    simp

theorem createFstabLines_eq_flatten (b : Bindicate) :
    b.createFstabLines =
      (b.Paths.map (fun path => fstabLine (filepath.Join b.Prefix path) path ++ ['\n'])).flatten := by
  unfold Bindicate.createFstabLines
  rw [foldl_render (fun path => (b.mountFor path).String) b.Paths []]
  simp [mountFor_String]

theorem flatten_newline_terminated (ls : List Str) :
    (ls.map (fun l => l ++ ['\n'])).flatten = [] ∨
      ∃ init, (ls.map (fun l => l ++ ['\n'])).flatten = init ++ ['\n'] := by
  induction ls with
  | nil => exact Or.inl rfl
  | cons l ls ih =>
    right
    rcases ih with h | ⟨init, h⟩
    · exact ⟨l, by simp [h]⟩
    · exact ⟨l ++ '\n' :: init, by simp [h]⟩

/-- The rendered lines are empty or end with a newline. -/
theorem createFstabLines_newline_terminated (b : Bindicate) :
    b.createFstabLines = [] ∨ ∃ init, b.createFstabLines = init ++ ['\n'] := by
  rw [createFstabLines_eq_flatten]
  have := flatten_newline_terminated
    (b.Paths.map (fun path => fstabLine (filepath.Join b.Prefix path) path))
  simpa [List.map_map, Function.comp] using this

theorem not_mem_bindMountsStart : '\n' ∉ bindMountsStart := by decide

theorem not_mem_bindMountEnd : '\n' ∉ bindMountEnd := by decide

/-- The lines of the regenerated section: the start sentinel, the rendered lines, and the
end sentinel. -/
theorem Split_managedSection (b : Bindicate) :
    strings.Split b.managedSection '\n' =
      bindMountsStart :: ((strings.Split b.createFstabLines '\n').dropLast ++ [bindMountEnd]) := by
  unfold Bindicate.managedSection
  rw [List.append_assoc, List.append_assoc, List.singleton_append, strings.Split_append_sep,
    strings.Split_of_not_mem not_mem_bindMountsStart, List.singleton_append]
  congr 1
  rcases createFstabLines_newline_terminated b with h | ⟨init, h⟩
  · rw [h, List.nil_append, strings.Split_of_not_mem not_mem_bindMountEnd]
    rfl
  · rw [h, List.append_assoc, List.singleton_append, strings.Split_append_sep,
      strings.Split_of_not_mem not_mem_bindMountEnd]
    have : strings.Split (init ++ ['\n']) '\n' = strings.Split init '\n' ++ [[]] := by
      rw [strings.Split_append_sep]; rfl
    rw [this, List.dropLast_concat]

/-- The lines of the output: the kept lines, then the lines of the regenerated section. -/
theorem Split_SyncBindMountsInFstab (b : Bindicate) (etcFstab : Str) :
    strings.Split (b.SyncBindMountsInFstab etcFstab) '\n' =
      keptLines etcFstab ++ strings.Split b.managedSection '\n' := by
  rw [SyncBindMountsInFstab_eq]
  by_cases hk : keptLines etcFstab = []
  · simp [hk]
  · rw [if_neg hk, List.append_assoc, List.singleton_append, strings.Split_append_sep,
      Split_joinLines hk]
    intro l hl
    exact strings.not_mem_of_mem_Split (mem_scanKept (mem_dropLeadingEmpty hl)).1

/-- Scanning the regenerated section from outside gives no kept line, when none of the
rendered lines starts with the end sentinel. -/
theorem scanKept_managedSection (b : Bindicate)
    (h : ∀ l ∈ strings.Split b.createFstabLines '\n',
      strings.HasPrefix l bindMountEnd = false) :
    scanKept false (strings.Split b.managedSection '\n') = [] := by
  rw [Split_managedSection, scanKept_start, scanKept_inside_append _ _
    (fun l hl => h l (List.dropLast_subset _ hl)), scanKept_end]
  rfl

/-! ## Claims about `SyncBindMountsInFstab` -/

/-- C3: appending to a text without a section.  When no line of the text starts with a
sentinel, the result for the empty text is exactly the section (the start sentinel, a
newline, the rendered lines, the end sentinel, and no newline after it), and the result for
a text that begins with a non-empty line is the text, a newline, and the section. -/
theorem sync_appends_section (b : Bindicate) (etcFstab : Str)
    (hs : ∀ l ∈ strings.Split etcFstab '\n',
      strings.HasPrefix l bindMountsStart = false ∧ strings.HasPrefix l bindMountEnd = false)
    (h0 : etcFstab ≠ [] → (strings.Split etcFstab '\n').head? ≠ some []) :
    b.SyncBindMountsInFstab etcFstab =
      if etcFstab = [] then bindMountsStart ++ ['\n'] ++ b.createFstabLines ++ bindMountEnd
      else etcFstab ++ ['\n'] ++
        (bindMountsStart ++ ['\n'] ++ b.createFstabLines ++ bindMountEnd) := by
  rw [SyncBindMountsInFstab_eq, keptLines, scanKept_of_no_sentinel _ hs]
  by_cases he : etcFstab = []
  · subst he
    simp [strings.Split, dropLeadingEmpty, Bindicate.managedSection]
  · rw [if_neg he]
    have h1 := h0 he
    cases hsp : strings.Split etcFstab '\n' with
    | nil => exact absurd hsp (strings.Split_ne_nil _ _)
    | cons l ls =>
      rw [hsp] at h1
      have hl : l ≠ [] := fun e => h1 (by simp [e])
      rw [dropLeadingEmpty_of_head_ne_nil hl, if_neg (by simp), ← hsp, joinLines_Split]
      rfl

/-- Witness of C3: the fstab of the test `multiple paths in fstab`. -/
theorem sync_appends_section_witness :
    cfgTest.SyncBindMountsInFstab fstabNoSection =
      "/dev/root / ext4 defaults 0 1\n# BINDICATE START\n/test/etc/test /etc/test bind  0 0\n# BINDICATE END".toList :=
  (sync_appends_section cfgTest fstabNoSection (by decide) (by decide)).trans (by decide)

/-- C2 as stated fails: the section of this fstab holds a line that starts with the end
sentinel, and the old line after it survives the synchronisation. -/
theorem sync_replaces_section_counterexample :
    strings.Split fstabEndInside '\n' =
        ["/dev/sda1 / ext4 defaults 0 1".toList] ++ bindMountsStart ::
          ([bindMountEnd, "/old/path /old/target bind defaults 0 0".toList] ++
            bindMountEnd :: ["# More entries".toList]) ∧
      cfgTest.SyncBindMountsInFstab fstabEndInside =
        "/dev/sda1 / ext4 defaults 0 1\n/old/path /old/target bind defaults 0 0\n# More entries\n# BINDICATE START\n/test/etc/test /etc/test bind  0 0\n# BINDICATE END".toList ∧
      cfgTest.SyncBindMountsInFstab fstabEndInside ≠
        joinLines (["/dev/sda1 / ext4 defaults 0 1".toList] ++ ["# More entries".toList]) ++
          ['\n'] ++ bindMountsStart ++ ['\n'] ++ cfgTest.createFstabLines ++ bindMountEnd := by
  decide

/-- C2, amended: replacing an existing section.  For an input made of the lines `A`, the
start sentinel, old section lines none of which starts with the end sentinel, the end
sentinel, and the lines `B`, where no line of `A` or `B` starts with a sentinel and `A`
begins with a non-empty line, the result is the lines of `A` and `B` joined by newlines,
a newline, the start sentinel, a newline, the rendered lines and the end sentinel. -/
theorem sync_replaces_section (b : Bindicate) (etcFstab : Str) (A old B : List Str)
    (hform : strings.Split etcFstab '\n' = A ++ bindMountsStart :: (old ++ bindMountEnd :: B))
    (hA : ∀ l ∈ A,
      strings.HasPrefix l bindMountsStart = false ∧ strings.HasPrefix l bindMountEnd = false)
    (hA0 : A ≠ [] ∧ A.head? ≠ some [])
    (hold : ∀ l ∈ old, strings.HasPrefix l bindMountEnd = false)
    (hB : ∀ l ∈ B,
      strings.HasPrefix l bindMountsStart = false ∧ strings.HasPrefix l bindMountEnd = false) :
    b.SyncBindMountsInFstab etcFstab =
      joinLines (A ++ B) ++ ['\n'] ++ bindMountsStart ++ ['\n'] ++ b.createFstabLines ++
        bindMountEnd := by
  rw [SyncBindMountsInFstab_eq, keptLines, hform, scanKept_one_section A old B hA hold hB]
  cases A with
  | nil => exact absurd rfl hA0.1
  | cons l rest =>
    have hl : l ≠ [] := fun e => hA0.2 (by simp [e])
    rw [List.cons_append, dropLeadingEmpty_of_head_ne_nil hl, if_neg (by simp)]
    simp [Bindicate.managedSection]

/-- Witness of C2, amended: the test `replace existing bindicate section`. -/
theorem sync_replaces_section_witness :
    cfgTest.SyncBindMountsInFstab fstabOneSection =
      "/dev/sda1 / ext4 defaults 0 1\n# More entries\n/dev/sda2 /home ext4 defaults 0 2\n# BINDICATE START\n/test/etc/test /etc/test bind  0 0\n# BINDICATE END".toList :=
  (sync_replaces_section cfgTest fstabOneSection ["/dev/sda1 / ext4 defaults 0 1".toList]
    ["/old/path /old/target bind defaults 0 0".toList]
    ["# More entries".toList, "/dev/sda2 /home ext4 defaults 0 2".toList]
    (by decide) (by decide) (by decide) (by decide) (by decide)).trans (by decide)

/-! ### The kept lines, by position -/

theorem afterOpenStart_append_left (pre rest : List Str) :
    afterOpenStart (pre ++ rest) pre.length ↔ afterOpenStart pre pre.length := by
  unfold afterOpenStart
  constructor
  · rintro ⟨j, hj, hs, he⟩
    refine ⟨j, hj, ?_, fun k hk hjk => ?_⟩
    · rwa [List.getD_append _ _ _ _ hj] at hs
    · have := he k hk hjk
      rwa [List.getD_append _ _ _ _ hk] at this
  · rintro ⟨j, hj, hs, he⟩
    refine ⟨j, hj, ?_, fun k hk hjk => ?_⟩
    · rwa [List.getD_append _ _ _ _ hj]
    · rw [List.getD_append _ _ _ _ hk]
      exact he k hk hjk

theorem getD_snoc_length (pre : List Str) (l : Str) : (pre ++ [l]).getD pre.length [] = l := by
  rw [List.getD_append_right _ _ _ _ (Nat.le_refl _)]
  simp

theorem afterOpenStart_snoc (pre : List Str) (l : Str) :
    afterOpenStart (pre ++ [l]) (pre ++ [l]).length ↔
      isStartLine l = true ∨ (isEndLine l = false ∧ afterOpenStart pre pre.length) := by
  have hlen : (pre ++ [l]).length = pre.length + 1 := by simp
  rw [hlen]
  unfold afterOpenStart
  constructor
  · rintro ⟨j, hj, hs, he⟩
    rcases Nat.lt_succ_iff_lt_or_eq.1 hj with hj1 | hj1
    · right
      have hl := he pre.length (Nat.lt_succ_self _) hj1
      rw [getD_snoc_length] at hl
      refine ⟨hl, j, hj1, ?_, fun k hk hjk => ?_⟩
      · rwa [List.getD_append _ _ _ _ hj1] at hs
      · have := he k (Nat.lt_succ_of_lt hk) hjk
        rwa [List.getD_append _ _ _ _ hk] at this
    · left
      subst hj1
      rwa [getD_snoc_length] at hs
  · rintro (hs | ⟨hl, j, hj, hs, he⟩)
    · refine ⟨pre.length, Nat.lt_succ_self _, ?_, fun k hk hjk => ?_⟩
      · rwa [getD_snoc_length]
      · omega
    · refine ⟨j, Nat.lt_succ_of_lt hj, ?_, fun k hk hjk => ?_⟩
      · rwa [List.getD_append _ _ _ _ hj]
      · rcases Nat.lt_succ_iff_lt_or_eq.1 hk with hk1 | hk1
        · rw [List.getD_append _ _ _ _ hk1]
          exact he k hk1 hjk
        · subst hk1
          rwa [getD_snoc_length]

/-- The flag of the scanning loop after the lines `pre` says whether the next line comes
after a start sentinel with no end sentinel in between; the loop copies the lines that
are no sentinel lines and for which this is not so. -/
theorem scanKept_eq_filter (suf pre : List Str) :
    scanKept (decide (afterOpenStart pre pre.length)) suf =
      ((suf.enumFrom pre.length).filter (fun q =>
        !isSentinel ((pre ++ suf).getD q.1 []) &&
          !decide (afterOpenStart (pre ++ suf) q.1))).map Prod.snd := by
  induction suf generalizing pre with
  | nil => simp [scanKept]
  | cons l suf ih =>
    have hget : (pre ++ l :: suf).getD pre.length [] = l := by
      rw [List.getD_append_right _ _ _ _ (Nat.le_refl _)]
      simp
    have hopen : afterOpenStart (pre ++ l :: suf) pre.length ↔
        afterOpenStart pre pre.length := afterOpenStart_append_left pre (l :: suf)
    have hsplit : pre ++ l :: suf = (pre ++ [l]) ++ suf := by simp
    have hlen : pre.length + 1 = (pre ++ [l]).length := by simp
    have hnext := ih (pre ++ [l])
    rw [← hsplit, ← hlen] at hnext
    have hsnoc := afterOpenStart_snoc pre l
    rw [← hlen] at hsnoc
    rw [List.enumFrom_cons, List.filter_cons, scanKept]
    dsimp only
    rw [hget]
    cases h1 : strings.HasPrefix l bindMountsStart with
    | true =>
      have hflag : decide (afterOpenStart (pre ++ [l]) (pre.length + 1)) = true :=
        decide_eq_true (hsnoc.2 (Or.inl h1))
      rw [hflag] at hnext
      simp only [isSentinel, h1, Bool.true_or, Bool.not_true, Bool.false_and,
        Bool.false_eq_true, if_false, if_true]
      exact hnext
    | false =>
      cases h2 : strings.HasPrefix l bindMountEnd with
      | true =>
        have hflag : decide (afterOpenStart (pre ++ [l]) (pre.length + 1)) = false := by
          apply decide_eq_false
          rw [hsnoc]
          simp [isStartLine, isEndLine, h1, h2]
        rw [hflag] at hnext
        simp only [isSentinel, h1, h2, Bool.or_true, Bool.not_true, Bool.false_and,
          Bool.false_eq_true, if_false, if_true]
        exact hnext
      | false =>
        have hiff : afterOpenStart (pre ++ [l]) (pre.length + 1) ↔
            afterOpenStart pre pre.length := by
          rw [hsnoc]
          simp [isStartLine, isEndLine, h1, h2]
        by_cases hp : afterOpenStart pre pre.length
        · have hflag : decide (afterOpenStart (pre ++ [l]) (pre.length + 1)) = true :=
            decide_eq_true (hiff.2 hp)
          rw [hflag] at hnext
          have hp2 : afterOpenStart (pre ++ l :: suf) pre.length := hopen.2 hp
          simp only [isSentinel, h1, h2, Bool.or_false, Bool.not_false, Bool.true_and,
            hp, hp2, decide_True, Bool.not_true, Bool.false_eq_true, if_false, if_true]
          exact hnext
        · have hflag : decide (afterOpenStart (pre ++ [l]) (pre.length + 1)) = false :=
            decide_eq_false (fun h => hp (hiff.1 h))
          rw [hflag] at hnext
          have hp2 : ¬ afterOpenStart (pre ++ l :: suf) pre.length := fun h => hp (hopen.1 h)
          simp only [isSentinel, h1, h2, Bool.or_false, Bool.not_false, Bool.true_and,
            hp, hp2, decide_False, Bool.false_eq_true, if_false, if_true, List.map_cons]
          exact congrArg (List.cons l) hnext

/-- The scanning loop copies exactly the lines that are neither sentinel lines nor after
a start sentinel with no end sentinel in between. -/
theorem scanKept_eq_outsideLines (ls : List Str) : scanKept false ls = outsideLines ls := by
  have h := scanKept_eq_filter ls []
  have h0 : decide (afterOpenStart [] ([] : List Str).length) = false := by decide
  rw [h0] at h
  rw [h]
  rfl

/-- C5 as stated fails, for two reasons.  The first fstab begins with an empty line,
which is outside every section and is not a line of the output.  The second has a start
sentinel that is never closed: the two lines after it are between no start sentinel and
end sentinel, and are not lines of the output. -/
theorem sync_preserves_lines_counterexample :
    (outsideClosedSections (strings.Split fstabLeadingBlank '\n') =
        [[], "/dev/sda1 / ext4 defaults 0 1".toList] ∧
      strings.Split (cfgTest.SyncBindMountsInFstab fstabLeadingBlank) '\n' =
        ["/dev/sda1 / ext4 defaults 0 1".toList, bindMountsStart,
          "/test/etc/test /etc/test bind  0 0".toList, bindMountEnd] ∧
      strings.Split (cfgTest.SyncBindMountsInFstab fstabLeadingBlank) '\n' ≠
        outsideClosedSections (strings.Split fstabLeadingBlank '\n') ++
          strings.Split (bindMountsStart ++ ['\n'] ++ cfgTest.createFstabLines ++ bindMountEnd)
            '\n') ∧
    (outsideClosedSections (strings.Split fstabUnclosed '\n') =
        ["/dev/sda1 / ext4 defaults 0 1".toList,
          "/old/path /old/target bind defaults 0 0".toList,
          "/dev/sda2 /home ext4 defaults 0 2".toList] ∧
      strings.Split (cfgTest.SyncBindMountsInFstab fstabUnclosed) '\n' =
        ["/dev/sda1 / ext4 defaults 0 1".toList, bindMountsStart,
          "/test/etc/test /etc/test bind  0 0".toList, bindMountEnd] ∧
      strings.Split (cfgTest.SyncBindMountsInFstab fstabUnclosed) '\n' ≠
        outsideClosedSections (strings.Split fstabUnclosed '\n') ++
          strings.Split (bindMountsStart ++ ['\n'] ++ cfgTest.createFstabLines ++ bindMountEnd)
            '\n') := by
  decide

/-- C5, amended: for every text and configuration, the lines of the output are the lines
of the input that are neither sentinel lines nor after a start sentinel with no end
sentinel in between (so neither between a start sentinel and the next end sentinel, nor
after a start sentinel that is never closed), without the empty lines they begin with,
in their order and with their text, followed by the lines of the regenerated section. -/
theorem sync_preserves_lines (b : Bindicate) (etcFstab : Str) :
    strings.Split (b.SyncBindMountsInFstab etcFstab) '\n' =
      dropLeadingEmpty (outsideLines (strings.Split etcFstab '\n')) ++
        strings.Split (bindMountsStart ++ ['\n'] ++ b.createFstabLines ++ bindMountEnd) '\n' := by
  rw [← scanKept_eq_outsideLines]
  exact Split_SyncBindMountsInFstab b etcFstab

/-- C9 as stated fails: the second section of this fstab is dropped like the first, and
its line is not a line of the output. -/
theorem sync_second_section_counterexample :
    strings.Split fstabTwoSections '\n' =
        ["/dev/sda1 / ext4 defaults 0 1".toList, bindMountsStart,
          "/old/one /one bind  0 0".toList, bindMountEnd, "# More entries".toList,
          bindMountsStart, "/old/two /two bind  0 0".toList, bindMountEnd,
          "/dev/sda2 /home ext4 defaults 0 2".toList] ∧
      cfgTest.SyncBindMountsInFstab fstabTwoSections =
        "/dev/sda1 / ext4 defaults 0 1\n# More entries\n/dev/sda2 /home ext4 defaults 0 2\n# BINDICATE START\n/test/etc/test /etc/test bind  0 0\n# BINDICATE END".toList ∧
      "/old/two /two bind  0 0".toList ∉
        strings.Split (cfgTest.SyncBindMountsInFstab fstabTwoSections) '\n' := by
  decide

/-- C9, amended: for every configuration and every input with two managed sections, the
first closed before the second begins (the lines `A`, a section with the lines `X`, the
lines `B`, a section with the lines `Y`, the lines `C`, none of these lines starting with a
sentinel), both sections are recognised and dropped: the output is the lines of `A`, `B`
and `C` without the empty lines they begin with, joined by newlines, and the
regenerated section. -/
theorem sync_drops_both_sections (b : Bindicate) (etcFstab : Str) (A X B Y C : List Str)
    (hform : strings.Split etcFstab '\n' =
      A ++ bindMountsStart :: (X ++ bindMountEnd ::
        (B ++ bindMountsStart :: (Y ++ bindMountEnd :: C))))
    (hA : ∀ l ∈ A,
      strings.HasPrefix l bindMountsStart = false ∧ strings.HasPrefix l bindMountEnd = false)
    (hX : ∀ l ∈ X,
      strings.HasPrefix l bindMountsStart = false ∧ strings.HasPrefix l bindMountEnd = false)
    (hB : ∀ l ∈ B,
      strings.HasPrefix l bindMountsStart = false ∧ strings.HasPrefix l bindMountEnd = false)
    (hY : ∀ l ∈ Y,
      strings.HasPrefix l bindMountsStart = false ∧ strings.HasPrefix l bindMountEnd = false)
    (hC : ∀ l ∈ C,
      strings.HasPrefix l bindMountsStart = false ∧ strings.HasPrefix l bindMountEnd = false) :
    b.SyncBindMountsInFstab etcFstab =
      (if dropLeadingEmpty (A ++ B ++ C) = [] then []
        else joinLines (dropLeadingEmpty (A ++ B ++ C)) ++ ['\n']) ++
        (bindMountsStart ++ ['\n'] ++ b.createFstabLines ++ bindMountEnd) := by
  have hk : keptLines etcFstab = dropLeadingEmpty (A ++ B ++ C) := by
    rw [keptLines, hform, scanKept_append_of_no_sentinel A _ hA, scanKept_start,
      scanKept_inside_append X _ (fun l hl => (hX l hl).2), scanKept_end,
      scanKept_one_section B Y C hB (fun l hl => (hY l hl).2) hC, List.append_assoc]
  rw [SyncBindMountsInFstab_eq, hk]
  rfl

/-- Witness of C9, amended: the fstab with two sections. -/
theorem sync_drops_both_sections_witness :
    cfgTest.SyncBindMountsInFstab fstabTwoSections =
      "/dev/sda1 / ext4 defaults 0 1\n# More entries\n/dev/sda2 /home ext4 defaults 0 2\n# BINDICATE START\n/test/etc/test /etc/test bind  0 0\n# BINDICATE END".toList :=
  (sync_drops_both_sections cfgTest fstabTwoSections ["/dev/sda1 / ext4 defaults 0 1".toList]
    ["/old/one /one bind  0 0".toList] ["# More entries".toList]
    ["/old/two /two bind  0 0".toList] ["/dev/sda2 /home ext4 defaults 0 2".toList]
    (by decide) (by decide) (by decide) (by decide) (by decide) (by decide)).trans (by decide)

/-- C1 as stated fails: with a path that has newlines in a file name, a rendered line of
the section starts with the end sentinel, and the second synchronisation keeps the
rendered text after it as ordinary lines. -/
theorem sync_idempotent_counterexample :
    cfgNewlinePath.SyncBindMountsInFstab [] =
        "# BINDICATE START\n/p/a\n# BINDICATE END\n/b /a\n# BINDICATE END\n/b bind  0 0\n# BINDICATE END".toList ∧
      cfgNewlinePath.SyncBindMountsInFstab (cfgNewlinePath.SyncBindMountsInFstab []) =
        "/b /a\n/b bind  0 0\n# BINDICATE START\n/p/a\n# BINDICATE END\n/b /a\n# BINDICATE END\n/b bind  0 0\n# BINDICATE END".toList ∧
      cfgNewlinePath.SyncBindMountsInFstab (cfgNewlinePath.SyncBindMountsInFstab []) ≠
        cfgNewlinePath.SyncBindMountsInFstab [] := by
  decide

/-- C1, amended: `SyncBindMountsInFstab` is idempotent on its own output for every text
and every configuration none of whose rendered fstab lines starts with the end sentinel:
applying it to its own result gives that same result. -/
theorem sync_idempotent (b : Bindicate) (etcFstab : Str)
    (h : ∀ l ∈ strings.Split b.createFstabLines '\n',
      strings.HasPrefix l bindMountEnd = false) :
    b.SyncBindMountsInFstab (b.SyncBindMountsInFstab etcFstab) =
      b.SyncBindMountsInFstab etcFstab := by
  have hk : keptLines (b.SyncBindMountsInFstab etcFstab) = keptLines etcFstab := by
    conv_lhs => rw [keptLines, Split_SyncBindMountsInFstab]
    rw [scanKept_append_of_no_sentinel (keptLines etcFstab) _
      (fun l hl => (mem_scanKept (mem_dropLeadingEmpty hl)).2),
      scanKept_managedSection b h, List.append_nil]
    exact dropLeadingEmpty_idem _
  rw [SyncBindMountsInFstab_eq b (b.SyncBindMountsInFstab etcFstab), hk,
    ← SyncBindMountsInFstab_eq]

/-- Witness of C1, amended: the test `replace existing bindicate section`, synchronised
twice. -/
theorem sync_idempotent_witness :
    (∀ l ∈ strings.Split cfgTest.createFstabLines '\n',
        strings.HasPrefix l bindMountEnd = false) ∧
      cfgTest.SyncBindMountsInFstab (cfgTest.SyncBindMountsInFstab fstabOneSection) =
        cfgTest.SyncBindMountsInFstab fstabOneSection :=
  ⟨by decide, sync_idempotent cfgTest fstabOneSection (by decide)⟩
/-! ## Cleaning plain absolute paths -/

namespace filepath

theorem cleanLoop_copy_end (rooted : Bool) (e : Str) (he : Separator ∉ e) (out : Str)
    (dotdot : Nat) : cleanLoop rooted true out dotdot e = out ++ e := by
  induction e generalizing out with
  | nil => simp [cleanLoop]
  | cons c e ih =>
    simp only [List.mem_cons, not_or] at he
    have hc : ¬ c = Separator := fun h => he.1 h.symm
    rw [cleanLoop, if_neg hc, ih he.2]
    simp

theorem cleanLoop_copy_sep (rooted : Bool) (e : Str) (he : Separator ∉ e) (out : Str)
    (dotdot : Nat) (t : Str) :
    cleanLoop rooted true out dotdot (e ++ Separator :: t) =
      cleanLoop rooted false (out ++ e) dotdot t := by
  induction e generalizing out with
  | nil => simp [cleanLoop]
  | cons c e ih =>
    simp only [List.mem_cons, not_or] at he
    have hc : ¬ c = Separator := fun h => he.1 h.symm
    rw [List.cons_append, cleanLoop, if_neg hc, ih he.2]
    simp

/-- One iteration of the loop outside an element, in one equation. -/
theorem cleanLoop_normal_cons (rooted : Bool) (out : Str) (dotdot : Nat) (c : Char)
    (rest : Str) :
    cleanLoop rooted false out dotdot (c :: rest) =
      if c = Separator then cleanLoop rooted false out dotdot rest
      else if c = '.' ∧ (rest = [] ∨ rest.head? = some Separator) then
        cleanLoop rooted false out dotdot rest
      else if c = '.' ∧ rest.head? = some '.' ∧
          (rest.tail = [] ∨ rest.tail.head? = some Separator) then
        cleanLoop rooted false (cleanDotDot rooted out dotdot).1
          (cleanDotDot rooted out dotdot).2 rest.tail
      else
        cleanLoop rooted true
          ((if (rooted ∧ out.length ≠ 1) ∨ (¬ rooted ∧ out.length ≠ 0) then
            out ++ [Separator] else out) ++ [c]) dotdot rest := by
  cases rest with
  | nil => rw [cleanLoop.eq_3]; simp [cleanLoop]
  | cons x r => rw [cleanLoop.eq_4]; simp

/-- An ordinary element is read by the `real path element` case of the loop. -/
theorem cleanLoop_ordinary (c : Char) (e rest : Str) (h : ordinaryElem (c :: e) = true)
    (hrest : rest = [] ∨ rest.head? = some Separator) (out : Str) (dotdot : Nat) :
    cleanLoop true false out dotdot (c :: (e ++ rest)) =
      cleanLoop true true
        ((if out.length ≠ 1 then out ++ [Separator] else out) ++ [c]) dotdot (e ++ rest) := by
  simp only [ordinaryElem, List.mem_cons, decide_eq_true_eq, not_or, ne_eq] at h
  obtain ⟨-, ⟨hc, he⟩, hdot, hdotdot⟩ := h
  have hc1 : ¬ c = Separator := fun h => hc h.symm
  have h1 : ¬ (c = '.' ∧ (e ++ rest = [] ∨ (e ++ rest).head? = some Separator)) := by
    rintro ⟨rfl, h⟩
    cases e with
    | nil => exact hdot rfl
    | cons x e =>
      simp only [List.cons_append, List.head?_cons, Option.some.injEq, reduceCtorEq,
        false_or] at h
      exact he (h ▸ List.mem_cons_self _ _)
  have h2 : ¬ (c = '.' ∧ (e ++ rest).head? = some '.' ∧
      ((e ++ rest).tail = [] ∨ (e ++ rest).tail.head? = some Separator)) := by
    rintro ⟨rfl, h, h3⟩
    cases e with
    | nil =>
      rcases hrest with hr | hr
      · simp [hr] at h
      · simp [hr, Separator] at h
    | cons x e =>
      simp only [List.cons_append, List.head?_cons, Option.some.injEq] at h
      subst h
      cases e with
      | nil => exact hdotdot rfl
      | cons y e =>
        simp only [List.cons_append, List.tail_cons, List.head?_cons, Option.some.injEq,
          reduceCtorEq, false_or] at h3
        exact he (h3 ▸ List.mem_cons_of_mem _ (List.mem_cons_self _ _))
  rw [cleanLoop_normal_cons, if_neg hc1, if_neg h1, if_neg h2]
  simp

/-- The output buffer after the loop has appended the elements `ys` to it. -/
theorem appendElems_eq (out : Str) (hout : 1 < out.length) (ys : List Str) :
    ys.foldl (fun o y => (if o.length ≠ 1 then o ++ [Separator] else o) ++ y) out =
      out ++ absPath ys := by
  induction ys generalizing out with
  | nil => simp [absPath]
  | cons y ys ih =>
    rw [List.foldl_cons, if_pos (by omega), ih _ (by simp; omega)]
    simp [absPath]

/-- The loop on a rooted path whose elements are empty or ordinary: the ordinary
elements are appended to the buffer, each after a separator unless the buffer is the
root. -/
theorem cleanLoop_pathOf (xs : List Str)
    (hxs : ∀ x ∈ xs, x = [] ∨ ordinaryElem x = true) (out : Str) (dotdot : Nat) :
    cleanLoop true false out dotdot (pathOf xs) =
      (xs.filter (fun x => x ≠ [])).foldl
        (fun o y => (if o.length ≠ 1 then o ++ [Separator] else o) ++ y) out := by
  induction xs generalizing out with
  | nil => simp [pathOf, cleanLoop]
  | cons x xs ih =>
    have hx := hxs x (List.mem_cons_self _ _)
    have hxs2 : ∀ y ∈ xs, y = [] ∨ ordinaryElem y = true :=
      fun y hy => hxs y (List.mem_cons_of_mem _ hy)
    cases xs with
    | nil =>
      rcases hx with hx | hx
      · subst hx; simp [pathOf, cleanLoop]
      · cases x with
        | nil => simp [ordinaryElem] at hx
        | cons c e =>
          have hsep : Separator ∉ e := by
            simp only [ordinaryElem, List.mem_cons, decide_eq_true_eq, not_or] at hx
            exact hx.2.1.2
          have := cleanLoop_ordinary c e [] hx (Or.inl rfl) out dotdot
          simp only [List.append_nil] at this
          rw [pathOf, this, cleanLoop_copy_end true e hsep]
          simp
    | cons y r =>
      rcases hx with hx | hx
      · subst hx
        rw [pathOf, List.nil_append, cleanLoop_normal_cons, if_pos rfl, ih hxs2]
        simp
      · cases x with
        | nil => simp [ordinaryElem] at hx
        | cons c e =>
          have hsep : Separator ∉ e := by
            simp only [ordinaryElem, List.mem_cons, decide_eq_true_eq, not_or] at hx
            exact hx.2.1.2
          rw [pathOf, List.cons_append,
            cleanLoop_ordinary c e (Separator :: pathOf (y :: r)) hx (Or.inr rfl) out dotdot,
            cleanLoop_copy_sep true e hsep, ih hxs2]
          simp

theorem pathOf_cons_eq (f : Str) (r : List Str) : pathOf (f :: r) = f ++ absPath r := by
  induction r generalizing f with
  | nil => simp [pathOf, absPath]
  | cons g r ih => rw [pathOf, ih]; simp [absPath]

theorem absPath_append (es fs : List Str) : absPath (es ++ fs) = absPath es ++ absPath fs := by
  simp [absPath]

/-- Cleaning a rooted path whose elements are empty or ordinary keeps the ordinary
elements. -/
theorem Clean_rooted_pathOf (xs : List Str)
    (hxs : ∀ x ∈ xs, x = [] ∨ ordinaryElem x = true)
    (hne : xs.filter (fun x => x ≠ []) ≠ []) :
    Clean (Separator :: pathOf xs) = absPath (xs.filter (fun x => x ≠ [])) := by
  rw [Clean]
  simp only [decide_True, if_true]
  rw [cleanLoop_pathOf xs hxs]
  cases hf : xs.filter (fun x => x ≠ []) with
  | nil => exact absurd hf hne
  | cons y ys =>
    have hy : y ≠ [] := by
      have : y ∈ xs.filter (fun x => x ≠ []) := hf ▸ List.mem_cons_self _ _
      simpa using (List.mem_filter.1 this).2
    rw [List.foldl_cons]
    simp only [List.length_singleton, ne_eq, not_true_eq_false, if_false]
    rw [appendElems_eq _ (by
      cases y with
      | nil => exact absurd rfl hy
      | cons c e => simp)]
    cases y with
    | nil => exact absurd rfl hy
    | cons c e => simp [absPath]

/-- Joining two plain absolute paths concatenates them. -/
theorem Join_plain {a b : Str} (ha : IsPlainAbs a) (hb : IsPlainAbs b) :
    Join a b = a ++ b := by
  obtain ⟨es, hes, hesO, rfl⟩ := ha
  obtain ⟨fs, -, hfsO, rfl⟩ := hb
  cases es with
  | nil => exact absurd rfl hes
  | cons e es =>
    have hform : absPath (e :: es) ++ [Separator] ++ absPath fs =
        Separator :: pathOf ((e :: es) ++ [] :: fs) := by
      rw [List.cons_append, pathOf_cons_eq, absPath_append]
      simp [absPath]
    have hnonempty : ∀ x ∈ (e :: es) ++ fs, x ≠ [] := by
      intro x hx
      have : ordinaryElem x = true := by
        rcases List.mem_append.1 hx with h | h
        · exact hesO x h
        · exact hfsO x h
      intro hnil
      simp [hnil, ordinaryElem] at this
    have hfilter : ((e :: es) ++ [] :: fs).filter (fun x => x ≠ []) = (e :: es) ++ fs := by
      have h1 : (e :: es).filter (fun x => x ≠ []) = e :: es :=
        List.filter_eq_self.2 (fun x hx => by
          simpa using hnonempty x (List.mem_append_left _ hx))
      have h2 : fs.filter (fun x => x ≠ []) = fs :=
        List.filter_eq_self.2 (fun x hx => by
          simpa using hnonempty x (List.mem_append_right _ hx))
      rw [List.filter_append, h1, List.filter_cons_of_neg (by simp), h2]
    rw [Join, if_pos (by simp [absPath]), hform, Clean_rooted_pathOf, hfilter, absPath_append]
    · intro x hx
      rcases List.mem_append.1 hx with h | h
      · exact Or.inr (hesO x h)
      · rcases List.mem_cons.1 h with h | h
        · exact Or.inl h
        · exact Or.inr (hfsO x h)
    · rw [hfilter]; simp

end filepath

/-! ## Characters of a cleaned path -/

namespace filepath

theorem not_mem_cleanDotDot {a : Char} (ha : a ≠ Separator) (hdot : a ≠ '.') (rooted : Bool)
    (out : Str) (dotdot : Nat) (hout : a ∉ out) : a ∉ (cleanDotDot rooted out dotdot).1 := by
  unfold cleanDotDot
  split
  · exact fun h => hout (List.mem_of_mem_take h)
  · split
    · by_cases h0 : out.length > 0 <;> simp [h0, hout, ha, hdot]
    · exact hout

/-- The loop writes nothing but characters of the path, separators and dots. -/
theorem not_mem_cleanLoop {a : Char} (ha : a ≠ Separator) (hdot : a ≠ '.') (rooted : Bool) :
    ∀ (n : Nat) (path : Str), path.length ≤ n → ∀ (copying : Bool) (out : Str) (dotdot : Nat),
      a ∉ out → a ∉ path → a ∉ cleanLoop rooted copying out dotdot path := by
  intro n
  induction n with
  | zero =>
    intro path hlen copying out dotdot hout _
    have : path = [] := List.length_eq_zero.1 (Nat.le_zero.1 hlen)
    subst this
    rw [cleanLoop.eq_1]
    exact hout
  | succ n ih =>
    intro path hlen copying out dotdot hout hpath
    cases path with
    | nil =>
      rw [cleanLoop.eq_1]
      exact hout
    | cons c rest =>
      have hc : a ≠ c := fun h => hpath (h ▸ List.mem_cons_self _ _)
      have hrest : a ∉ rest := fun h => hpath (List.mem_cons_of_mem _ h)
      have hlen1 : rest.length ≤ n := Nat.le_of_succ_le_succ hlen
      have houtc : a ∉ out ++ [c] := by simp [hout, hc]
      cases copying with
      | true =>
        rw [cleanLoop.eq_2]
        split
        · exact ih rest hlen1 false out dotdot hout hrest
        · exact ih rest hlen1 true _ dotdot houtc hrest
      | false =>
        rw [cleanLoop_normal_cons]
        split
        · exact ih rest hlen1 false out dotdot hout hrest
        · split
          · exact ih rest hlen1 false out dotdot hout hrest
          · split
            · refine ih rest.tail ?_ false _ _ (not_mem_cleanDotDot ha hdot rooted out dotdot hout)
                (fun h => hrest (List.mem_of_mem_tail h))
              exact Nat.le_trans (by simp) hlen1
            · refine ih rest hlen1 true _ dotdot ?_ hrest
              split <;> simp [hout, hc, ha]

theorem not_mem_Clean {a : Char} (ha : a ≠ Separator) (hdot : a ≠ '.') (path : Str)
    (hpath : a ∉ path) : a ∉ Clean path := by
  unfold Clean
  cases path with
  | nil => simpa using hdot
  | cons c rest =>
    have hc : a ≠ c := fun h => hpath (h ▸ List.mem_cons_self _ _)
    have hrest : a ∉ rest := fun h => hpath (List.mem_cons_of_mem _ h)
    have h1 : a ∉ cleanLoop true false [Separator] 1 rest :=
      not_mem_cleanLoop ha hdot true _ rest (Nat.le_refl _) false _ 1 (by simpa using ha) hrest
    have h2 : a ∉ cleanLoop false false [] 0 (c :: rest) :=
      not_mem_cleanLoop ha hdot false _ (c :: rest) (Nat.le_refl _) false _ 0 (by simp) hpath
    dsimp only
    split
    · split
      · simpa using hdot
      · exact h1
    · split
      · simpa using hdot
      · exact h2

theorem not_mem_Join {a : Char} (ha : a ≠ Separator) (hdot : a ≠ '.') (p q : Str)
    (hp : a ∉ p) (hq : a ∉ q) : a ∉ Join p q := by
  unfold Join
  split
  · exact not_mem_Clean ha hdot _ (by simp [hp, hq, ha])
  · split
    · exact not_mem_Clean ha hdot _ hq
    · simp

end filepath

theorem not_mem_fstabLine (device mountPoint : Str) (hd : '\n' ∉ device)
    (hm : '\n' ∉ mountPoint) : '\n' ∉ fstabLine device mountPoint := by
  have h : '\n' ∉ " bind  0 0".toList := by decide
  simp [fstabLine, hd, hm, h]

theorem Split_terminated_lines (ls : List Str) (h : ∀ l ∈ ls, '\n' ∉ l) :
    strings.Split ((ls.map (fun l => l ++ ['\n'])).flatten) '\n' = ls ++ [[]] := by
  induction ls with
  | nil => rfl
  | cons l ls ih =>
    rw [List.map_cons, List.flatten_cons, List.append_assoc, List.singleton_append,
      strings.Split_append_sep, strings.Split_of_not_mem (h l (List.mem_cons_self _ _)),
      ih (fun x hx => h x (List.mem_cons_of_mem _ hx))]
    rfl

theorem count_terminated_lines (ls : List Str) (h : ∀ l ∈ ls, '\n' ∉ l) :
    ((ls.map (fun l => l ++ ['\n'])).flatten).count '\n' = ls.length := by
  induction ls with
  | nil => rfl
  | cons l ls ih =>
    rw [List.map_cons, List.flatten_cons, List.count_append, List.count_append,
      ih (fun x hx => h x (List.mem_cons_of_mem _ hx)),
      List.count_eq_zero_of_not_mem (h l (List.mem_cons_self _ _))]
    simp
    omega

/-! ## Claims about `createFstabLines` -/

/-- C4 as stated fails, for two reasons.  With a prefix that ends with a separator the
device field is the cleaned path, which is neither the prefix followed by the path nor
the prefix, a separator and the path.  With a path that has newlines in a file name the
one path gives five newline-terminated lines. -/
theorem createFstabLines_counterexample :
    (cfgTrailingSlash.createFstabLines = "/test/etc/test /etc/test bind  0 0\n".toList ∧
      cfgTrailingSlash.createFstabLines ≠
        fstabLine (cfgTrailingSlash.Prefix ++ "/etc/test".toList) "/etc/test".toList ++ ['\n'] ∧
      cfgTrailingSlash.createFstabLines ≠
        fstabLine (cfgTrailingSlash.Prefix ++ ['/'] ++ "/etc/test".toList) "/etc/test".toList ++
          ['\n']) ∧
    (cfgNewlinePath.Paths.length = 1 ∧
      cfgNewlinePath.createFstabLines.count '\n' = 5 ∧
      strings.Split cfgNewlinePath.createFstabLines '\n' =
        ["/p/a".toList, "# BINDICATE END".toList, "/b /a".toList, "# BINDICATE END".toList,
          "/b bind  0 0".toList, []]) := by
  decide

/-- C4, amended: for every configuration with `n` paths in which neither the prefix nor
a path has a newline, `createFstabLines` returns exactly `n` newline-terminated lines in
declared path order (the output splits at its `n` newlines into these lines and an empty
rest); the line of a path is the device field, a space, the path as mount point, and
` bind  0 0`, where the device field is `filepath.Join(prefix, path)`, which for a
non-empty prefix is the lexically cleaned `prefix + "/" + path`, and is the prefix followed
by the path when both are plain absolute paths.  The output is empty when there are no
paths. -/
theorem createFstabLines_lines (b : Bindicate)
    (h : ∀ path ∈ b.Paths, '\n' ∉ b.Prefix ∧ '\n' ∉ path) :
    strings.Split b.createFstabLines '\n' =
        b.Paths.map (fun path => fstabLine (filepath.Join b.Prefix path) path) ++ [[]] ∧
      b.createFstabLines.count '\n' = b.Paths.length ∧
      (b.Paths = [] → b.createFstabLines = []) ∧
      (b.Prefix ≠ [] → ∀ path ∈ b.Paths,
        filepath.Join b.Prefix path = filepath.Clean (b.Prefix ++ ['/'] ++ path)) ∧
      (IsPlainAbs b.Prefix → ∀ path ∈ b.Paths, IsPlainAbs path →
        filepath.Join b.Prefix path = b.Prefix ++ path) := by
  have hlines : ∀ l ∈ b.Paths.map (fun path => fstabLine (filepath.Join b.Prefix path) path),
      '\n' ∉ l := by
    intro l hl
    obtain ⟨path, hpath, rfl⟩ := List.mem_map.1 hl
    have hp := h path hpath
    exact not_mem_fstabLine _ _
      (filepath.not_mem_Join (by decide) (by decide) _ _ hp.1 hp.2) hp.2
  have hflat : b.createFstabLines =
      ((b.Paths.map (fun path => fstabLine (filepath.Join b.Prefix path) path)).map
        (fun l => l ++ ['\n'])).flatten := by
    rw [createFstabLines_eq_flatten, List.map_map]
    rfl
  refine ⟨?_, ?_, ?_, ?_, ?_⟩
  · rw [hflat, Split_terminated_lines _ hlines]
  · rw [hflat, count_terminated_lines _ hlines, List.length_map]
  · intro he
    rw [createFstabLines_eq_flatten, he]
    rfl
  · intro hne path _
    rw [filepath.Join, if_pos hne]
    rfl
  · intro hp path _ hpath
    exact filepath.Join_plain hp hpath

/-- Witness of C4, amended: the test `multiple paths`, whose prefix and paths are plain
absolute paths without a newline. -/
theorem createFstabLines_lines_witness :
    strings.Split (Bindicate.mk "/test/prefix".toList
        ["/etc/hostname".toList, "/etc/hosts".toList, "/etc/fstab".toList]).createFstabLines
        '\n' =
      ["/test/prefix/etc/hostname /etc/hostname bind  0 0".toList,
        "/test/prefix/etc/hosts /etc/hosts bind  0 0".toList,
        "/test/prefix/etc/fstab /etc/fstab bind  0 0".toList, []] ∧
    filepath.Join "/test/prefix".toList "/etc/hosts".toList =
      "/test/prefix".toList ++ "/etc/hosts".toList :=
  ⟨((createFstabLines_lines (Bindicate.mk "/test/prefix".toList
      ["/etc/hostname".toList, "/etc/hosts".toList, "/etc/fstab".toList])
    (by decide)).1).trans (by decide),
   (createFstabLines_lines (Bindicate.mk "/test/prefix".toList
      ["/etc/hostname".toList, "/etc/hosts".toList, "/etc/fstab".toList])
    (by decide)).2.2.2.2
      ⟨["test".toList, "prefix".toList], by decide, by decide, by decide⟩
      "/etc/hosts".toList (by decide)
      ⟨["etc".toList, "hosts".toList], by decide, by decide, by decide⟩⟩

/-! ## Claims about `SetupBindMounts` -/

/-- C8 fails on the code: when the destination of the first path does not exist and the
stat of the directory of the source fails, `pStat` is `nil` and `pStat.Mode()` stops the
program.  No directory is created, no copy is made, no error is recorded and the other
paths are not processed. -/
theorem setup_crashes_when_source_dir_stat_fails {W E F : Type} (sys : OS W E F)
    (b : Bindicate) (w : W) (path : Str) (rest : List Str) (e1 e2 : E)
    (hpaths : b.Paths = path :: rest)
    (hdest : sys.Stat w (b.Prefix ++ ['/'] ++ path) = Except.error e1)
    (hnotexist : sys.IsNotExist e1 = true)
    (hsrc : sys.Stat w (filepath.Dir path) = Except.error e2) :
    b.SetupBindMounts sys w = Outcome.crashed { world := w, errs := [], calls := [] } := by
  have hprep : Bindicate.prepareDest sys { world := w, errs := [], calls := [] }
      (b.Prefix ++ ['/'] ++ path) (filepath.Dir path) = none := by
    simp only [Bindicate.prepareDest, hdest, hnotexist, hsrc, if_true]
  have hstep : b.setupPath sys { world := w, errs := [], calls := [] } path = none := by
    simp only [Bindicate.setupPath, hprep]
  rw [Bindicate.SetupBindMounts, hpaths, Bindicate.setupLoop]
  simp only [hstep]

/-- Witness of the theorem of C8: the small machine has neither `/p` nor `/nonexistent`. -/
theorem setup_crashes_witness :
    cfgBadPath.SetupBindMounts memOS smallMachine =
      Outcome.crashed { world := smallMachine, errs := [], calls := [] } :=
  setup_crashes_when_source_dir_stat_fails memOS cfgBadPath smallMachine
    "/nonexistent/file".toList ["/etc/hosts".toList] Errno.ENOENT Errno.ENOENT
    rfl rfl rfl rfl

/-- C6 fails on the code: on the small machine the copy of the first path of `cfgBadPath`
would fail, and `SetupBindMounts` neither succeeds nor returns an aggregate error: it
does not return. -/
theorem setup_returns_no_aggregate_error :
    (copyFilePreservePermissions memOS smallMachine "/nonexistent/file".toList
        "/p//nonexistent/file".toList).2 = some Errno.ENOENT ∧
      (cfgBadPath.SetupBindMounts memOS smallMachine).result = none := by
  decide

/-- C7 fails on the code: the copy and the bind mount of `/etc/hosts` succeed when it is
the only path, but after the path `/nonexistent/file` no copy is attempted at all. -/
theorem setup_skips_later_paths :
    (cfgGoodPath.SetupBindMounts memOS smallMachine).result = some none ∧
      (cfgGoodPath.SetupBindMounts memOS smallMachine).run.calls =
        [Call.mkdirAll "/p/etc".toList 0o755,
          Call.copy "/etc/hosts".toList "/p//etc/hosts".toList,
          Call.mount "/etc/hosts".toList "/p//etc/hosts".toList] ∧
      (cfgBadPath.SetupBindMounts memOS smallMachine).run.calls = [] := by
  decide

/-! ## The bind mounts and the fstab lines -/

/-- C10 fails on the code: for the configuration of the test `single path`, on a machine
with the file `/etc/hostname`, `SetupBindMounts` succeeds and the one call that
`syscall.Mount` receives has the original `/etc/hostname` as source and the copy under
the prefix as target, while the fstab line has the copy under the prefix as device and
the original as mount point.  The source of the call is the mount point of the line, and
the target of the call, once cleaned, is the device of the line. -/
theorem mount_call_reversed :
    (cfgHostname.SetupBindMounts memOS hostMachine).result = some none ∧
      (cfgHostname.SetupBindMounts memOS hostMachine).run.world.mounts =
        [("/etc/hostname".toList, "/var/lib/bindicate/protected//etc/hostname".toList)] ∧
      cfgHostname.createFstabLines =
        "/var/lib/bindicate/protected/etc/hostname /etc/hostname bind  0 0\n".toList ∧
      (cfgHostname.mountFor "/etc/hostname".toList).Spec =
        "/var/lib/bindicate/protected/etc/hostname".toList ∧
      (cfgHostname.mountFor "/etc/hostname".toList).File = "/etc/hostname".toList ∧
      (cfgHostname.SetupBindMounts memOS hostMachine).run.world.mounts ≠
        [((cfgHostname.mountFor "/etc/hostname".toList).Spec,
          (cfgHostname.mountFor "/etc/hostname".toList).File)] ∧
      filepath.Clean "/var/lib/bindicate/protected//etc/hostname".toList =
        (cfgHostname.mountFor "/etc/hostname".toList).Spec := by
  decide

/-! ## The cases of the test suite and of the library documentation -/

theorem test_createFstabLines_single_path :
    (Bindicate.mk "/var/lib/bindicate/protected".toList
        ["/etc/hostname".toList]).createFstabLines =
      "/var/lib/bindicate/protected/etc/hostname /etc/hostname bind  0 0\n".toList := by
  decide

theorem test_createFstabLines_empty_paths :
    (Bindicate.mk "/test/prefix".toList []).createFstabLines = [] := by
  decide

theorem test_sync_add_section :
    (Bindicate.mk "/test".toList ["/etc/hostname".toList]).SyncBindMountsInFstab
        "# System fstab\n/dev/sda1 / ext4 defaults 0 1\n/dev/sda2 /home ext4 defaults 0 2".toList =
      "# System fstab\n/dev/sda1 / ext4 defaults 0 1\n/dev/sda2 /home ext4 defaults 0 2\n# BINDICATE START\n/test/etc/hostname /etc/hostname bind  0 0\n# BINDICATE END".toList := by
  decide

theorem test_sync_empty_fstab :
    cfgTest.SyncBindMountsInFstab [] =
      "# BINDICATE START\n/test/etc/test /etc/test bind  0 0\n# BINDICATE END".toList := by
  decide

theorem test_sync_multiple_paths :
    (Bindicate.mk "/protected".toList
        ["/etc/hostname".toList, "/etc/hosts".toList]).SyncBindMountsInFstab fstabNoSection =
      "/dev/root / ext4 defaults 0 1\n# BINDICATE START\n/protected/etc/hostname /etc/hostname bind  0 0\n/protected/etc/hosts /etc/hosts bind  0 0\n# BINDICATE END".toList := by
  decide

theorem Clean_cases :
    filepath.Clean [] = ".".toList ∧
      filepath.Clean "/".toList = "/".toList ∧
      filepath.Clean "abc/".toList = "abc".toList ∧
      filepath.Clean "abc//def//ghi".toList = "abc/def/ghi".toList ∧
      filepath.Clean "abc/./def".toList = "abc/def".toList ∧
      filepath.Clean "abc/def/../ghi/../jkl".toList = "abc/jkl".toList ∧
      filepath.Clean "abc/def/../../..".toList = "..".toList ∧
      filepath.Clean "/abc/def/../../..".toList = "/".toList ∧
      filepath.Clean "abc/./../def".toList = "def".toList ∧
      filepath.Clean "../../abc".toList = "../../abc".toList ∧
      filepath.Clean "/../abc".toList = "/abc".toList ∧
      filepath.Clean "abc/../../././../def".toList = "../../def".toList := by
  decide

theorem Join_Dir_cases :
    filepath.Join "a".toList "b".toList = "a/b".toList ∧
      filepath.Join "a".toList [] = "a".toList ∧
      filepath.Join [] "b".toList = "b".toList ∧
      filepath.Join [] [] = [] ∧
      filepath.Join "/".toList "a".toList = "/a".toList ∧
      filepath.Join "a/".toList "b".toList = "a/b".toList ∧
      filepath.Dir [] = ".".toList ∧
      filepath.Dir "/".toList = "/".toList ∧
      filepath.Dir "/usr/local//go".toList = "/usr/local".toList ∧
      filepath.Dir "/foo/bar/baz.js".toList = "/foo/bar".toList ∧
      filepath.Dir "dev.txt".toList = ".".toList ∧
      filepath.Dir "../todo.txt".toList = "..".toList := by
  decide
